import Mathlib

/-!
Shallow embedding of the daily-cigarettes-tracker core (Event Store in
`src/utils/storage.ts`, Aggregation Engine inlined in the tab screens).

Modelling conventions:
* An instant is an `Int`, milliseconds since the epoch.  The source stores
  timestamps as ISO-8601 strings and reparses them with `parseISO`; the
  round-trip is the identity on the denoted instant, so we work with the
  instant directly.
* The data model is timezone-naive (spec §3: "timezone-naive serialization,
  interpreted in local time") with uniform 24-hour days, so the local
  calendar date of an instant is its floor-quotient by the number of
  milliseconds in a day, and `format(d, 'yyyy-MM-dd')` is modelled by that
  integer day number (the formatting is injective on day numbers).
* Fallible reads (`AsyncStorage.getItem` + `JSON.parse` inside `try/catch`)
  are embedded by passing the outcome of the read explicitly.
-/

/-- Milliseconds in one (uniform) calendar day: `24 * 60 * 60 * 1000`. -/
def msPerDay : Int := 24 * 60 * 60 * 1000

/-- Milliseconds in one hour. -/
def msPerHour : Int := 60 * 60 * 1000

/-- Local calendar day number of an instant: model of taking
`format(d, 'yyyy-MM-dd')` of a `Date`.  `Int` division is Euclidean, which
for the positive divisor `msPerDay` is floor division, so instants before
the epoch are handled correctly. -/
def dayOf (t : Int) : Int := t / msPerDay

/-- Local hour of day of an instant: model of `Date.prototype.getHours()`. -/
def hourOfDay (t : Int) : Int := t % msPerDay / msPerHour

/-- `CigaretteLog` from `src/utils/storage.ts`: `{ id: string; timestamp: string }`,
with the ISO timestamp replaced by the instant it denotes. -/
structure CigaretteLog where
  id : String
  timestamp : Int
deriving DecidableEq, Repr

/-- A `{date: Date; count: number}` element of the `getLogsByDay` result,
with the `Date` replaced by its calendar day number. -/
structure DailyBucket where
  date : Int
  count : Nat
deriving DecidableEq, Repr

/-- Outcome of a guarded storage read: `AsyncStorage.getItem` returned
`null` (key missing), the read or the subsequent parse threw (the `catch`
branch), or a value was obtained. -/
inductive ReadResult (α : Type) where
  | absent : ReadResult α
  | unreadable : ReadResult α
  | value : α → ReadResult α
deriving DecidableEq

/-- `getLogs` from `src/utils/storage.ts:24-32`: `logs ? JSON.parse(logs) : []`
with `catch` returning `[]`. -/
def getLogs (r : ReadResult (List CigaretteLog)) : List CigaretteLog :=
  match r with
  | .absent => []
  | .unreadable => []
  | .value logs => logs

/-- `DEFAULT_GOAL` from `src/utils/storage.ts:6`. -/
def DEFAULT_GOAL : Int := 0

/-- `getDailyGoal` from `src/utils/storage.ts:109-117`:
`value ? parseInt(value, 10) || DEFAULT_GOAL : DEFAULT_GOAL`, with `catch`
returning `DEFAULT_GOAL`.  The stored string is abstracted to the outcome of
`parseInt` on it (`none` for `NaN`); the JS `||` turns both `NaN` and `0`
into `DEFAULT_GOAL`. -/
def getDailyGoal (r : ReadResult (Option Int)) : Int :=
  match r with
  | .absent => DEFAULT_GOAL
  | .unreadable => DEFAULT_GOAL
  | .value none => DEFAULT_GOAL
  | .value (some n) => if n = 0 then DEFAULT_GOAL else n

/-- `addLog` from `src/utils/storage.ts:35-51` acting on the persisted
collection: the optional argument defaults to a log synthesized from the
current time (`Date.now().toString()` id, `new Date().toISOString()`
timestamp), and the new log is appended.  `saveLogs` followed by `getLogs`
is the identity on the collection (read-after-write consistency, spec §5),
so the returned list is also the new persisted state. -/
def addLog (logs : List CigaretteLog) (log : Option CigaretteLog) (nowMs : Int) :
    List CigaretteLog :=
  let newLog := log.getD ⟨toString nowMs, nowMs⟩
  logs ++ [newLog]

/-- `removeLog` from `src/utils/storage.ts:54-64`:
`logs.filter(log => log.id !== id)`. -/
def removeLog (logs : List CigaretteLog) (id : String) : List CigaretteLog :=
  logs.filter (fun log => log.id ≠ id)

/-- One step of the `forEach` counting loop in `getLogsByDay`
(`src/utils/storage.ts:91-96`): `if (result.hasOwnProperty(dateKey)) result[dateKey]++`.
A key that is already present gets its count bumped; an absent key leaves
the object unchanged. -/
def bumpKey (m : List (Int × Nat)) (k : Int) : List (Int × Nat) :=
  m.map (fun p => if p.1 = k then (p.1, p.2 + 1) else p)

/-- `getLogsByDay` from `src/utils/storage.ts:78-107`, applied to an
explicit collection and reference instant.  The JS object `result` is an
association list in insertion order (its keys are non-index strings, so
`Object.entries` returns insertion order): it is initialized with the keys
`format(today.getTime() - i*24*60*60*1000, 'yyyy-MM-dd')` for
`i = 0 .. days-1` mapped to `0`, each log bumps its day's entry if present,
and the entries are turned into buckets and sorted by ascending date. -/
def getLogsByDay (logs : List CigaretteLog) (days : Int) (now : Int) :
    List DailyBucket :=
  let init : List (Int × Nat) :=
    (List.range days.toNat).map (fun i : Nat => (dayOf (now - (i : Int) * msPerDay), 0))
  let counted := logs.foldl (fun m log => bumpKey m (dayOf log.timestamp)) init
  (counted.map (fun p => DailyBucket.mk p.1 p.2)).mergeSort
    (fun a b => a.date ≤ b.date)

/-- Number of logs whose local calendar date is the day `k`. -/
def countOnDay (logs : List CigaretteLog) (k : Int) : Nat :=
  (logs.filter (fun log => dayOf log.timestamp = k)).length

/-- The `getLogsByDay` result in closed form: the window's day numbers in
ascending order, each paired with the number of logs falling on it. -/
def ascBuckets (logs : List CigaretteLog) (days : Int) (now : Int) :
    List DailyBucket :=
  ((List.range days.toNat).map
    (fun i : Nat =>
      DailyBucket.mk (dayOf now - (i : Int)) (countOnDay logs (dayOf now - (i : Int))))).reverse

theorem dayOf_sub_mul (now i : Int) : dayOf (now - i * msPerDay) = dayOf now - i := by
  have h : now - i * msPerDay = now + (-i) * msPerDay := by ring
  have hne : msPerDay ≠ 0 := by norm_num [msPerDay]
  simp only [dayOf, h, Int.add_mul_ediv_right _ _ hne]
  ring

theorem foldl_bumpKey (logs : List CigaretteLog) :
    ∀ m : List (Int × Nat),
      logs.foldl (fun m log => bumpKey m (dayOf log.timestamp)) m
        = m.map (fun p => (p.1, p.2 + countOnDay logs p.1)) := by
  induction logs with
  | nil => intro m; simp [countOnDay]
  | cons l ls ih =>
    intro m
    have hstep :
        (l :: ls).foldl (fun m log => bumpKey m (dayOf log.timestamp)) m
          = ls.foldl (fun m log => bumpKey m (dayOf log.timestamp))
              (bumpKey m (dayOf l.timestamp)) := rfl
    rw [hstep, ih, bumpKey, List.map_map]
    apply List.map_congr_left
    intro p _
    by_cases hk : p.1 = dayOf l.timestamp
    · simp only [Function.comp, hk, if_pos rfl, countOnDay, List.filter_cons,
        decide_eq_true_eq, if_pos rfl]
      simp [List.length_cons]
      omega
    · have hk' : ¬ dayOf l.timestamp = p.1 := fun h => hk h.symm
      simp only [Function.comp, if_neg hk, countOnDay, List.filter_cons]
      simp [hk']

theorem mergeSort_eq_reverse_of_strictDesc (l : List DailyBucket)
    (h : l.Pairwise (fun a b => b.date < a.date)) :
    l.mergeSort (fun a b => a.date ≤ b.date) = l.reverse := by
  haveI : IsAntisymm DailyBucket (fun a b => a.date < b.date) :=
    ⟨fun a b h1 h2 => absurd (h1.trans h2) (lt_irrefl _)⟩
  have hperm : List.Perm (l.mergeSort (fun a b => a.date ≤ b.date)) l.reverse :=
    (List.mergeSort_perm l _).trans (List.reverse_perm l).symm
  have hle : (l.mergeSort (fun a b => a.date ≤ b.date)).Pairwise
      (fun a b : DailyBucket => a.date ≤ b.date) := by
    have hs : (l.mergeSort (fun a b => a.date ≤ b.date)).Pairwise
        (fun a b : DailyBucket => decide (a.date ≤ b.date) = true) :=
      List.sorted_mergeSort
        (fun a b c h1 h2 => by
          simp only [decide_eq_true_eq] at h1 h2 ⊢; exact le_trans h1 h2)
        (fun a b => by
          simp only [Bool.or_eq_true, decide_eq_true_eq]; exact le_total a.date b.date)
        l
    exact hs.imp (fun hab => by simpa using hab)
  have hnd : ((l.mergeSort (fun a b => a.date ≤ b.date)).map DailyBucket.date).Nodup := by
    have h1 : (l.map DailyBucket.date).Nodup := by
      rw [List.Nodup, List.pairwise_map]
      exact h.imp (fun hab => by omega)
    exact ((hperm.trans (List.reverse_perm l)).map DailyBucket.date).nodup_iff.mpr h1
  have hlt : (l.mergeSort (fun a b => a.date ≤ b.date)).Pairwise
      (fun a b : DailyBucket => a.date < b.date) := by
    have hne : (l.mergeSort (fun a b => a.date ≤ b.date)).Pairwise
        (fun a b : DailyBucket => a.date ≠ b.date) := by
      rw [List.Nodup, List.pairwise_map] at hnd
      exact hnd
    exact (hle.and hne).imp (fun hab => lt_of_le_of_ne hab.1 hab.2)
  have hrev : l.reverse.Pairwise (fun a b : DailyBucket => a.date < b.date) :=
    List.pairwise_reverse.mpr h
  exact List.eq_of_perm_of_sorted hperm hlt hrev

theorem getLogsByDay_eq (logs : List CigaretteLog) (days now : Int) :
    getLogsByDay logs days now = ascBuckets logs days now := by
  simp only [getLogsByDay, ascBuckets]
  rw [foldl_bumpKey, List.map_map, List.map_map]
  have hmapeq :
      (List.range days.toNat).map
          (((fun p : Int × Nat => DailyBucket.mk p.1 p.2) ∘
            (fun p : Int × Nat => (p.1, p.2 + countOnDay logs p.1))) ∘
              (fun i : Nat => (dayOf (now - (i : Int) * msPerDay), 0)))
        = (List.range days.toNat).map
            (fun i : Nat =>
              DailyBucket.mk (dayOf now - (i : Int))
                (countOnDay logs (dayOf now - (i : Int)))) := by
    apply List.map_congr_left
    intro i _
    simp [Function.comp, dayOf_sub_mul now (i : Int)]
  rw [hmapeq]
  apply mergeSort_eq_reverse_of_strictDesc
  rw [List.pairwise_map]
  exact (List.pairwise_lt_range days.toNat).imp (fun hij => by simp; omega)

theorem ascBuckets_map_date (logs : List CigaretteLog) (days now : Int) :
    (ascBuckets logs days now).map DailyBucket.date
      = ((List.range days.toNat).map (fun i : Nat => dayOf now - (i : Int))).reverse := by
  simp [ascBuckets, List.map_reverse, List.map_map, Function.comp]

theorem revmap_range_succ (n : Nat) (d : Int) :
    ((List.range (n + 1)).map (fun i : Nat => d - (i : Int))).reverse
      = (d - (n : Int)) :: ((List.range n).map (fun i : Nat => d - (i : Int))).reverse := by
  rw [List.range_succ]
  simp

theorem revmap_range_chain (n : Nat) (d : Int) :
    (((List.range n).map (fun i : Nat => d - (i : Int))).reverse).Chain'
      (fun a b => b = a + 1) := by
  induction n with
  | zero => simp
  | succ m ih =>
    rw [revmap_range_succ]
    rw [List.chain'_cons']
    refine ⟨?_, ih⟩
    intro y hy
    match m with
    | 0 => simp at hy
    | k + 1 =>
      rw [revmap_range_succ] at hy
      simp only [List.head?_cons, Option.mem_def, Option.some.injEq] at hy
      subst hy
      push_cast
      ring

theorem revmap_range_getLast (n : Nat) (d : Int) (h : n ≠ 0) :
    (((List.range n).map (fun i : Nat => d - (i : Int))).reverse).getLast? = some d := by
  rw [List.getLast?_reverse]
  match n, h with
  | m + 1, _ =>
    rw [List.range_succ_eq_map]
    simp

theorem ascBuckets_counts (logs : List CigaretteLog) (days now : Int) :
    ∀ b ∈ ascBuckets logs days now, b.count = countOnDay logs b.date := by
  intro b hb
  simp only [ascBuckets, List.mem_reverse, List.mem_map, List.mem_range] at hb
  obtain ⟨i, _, rfl⟩ := hb
  rfl

/-- C1: for every log collection and every `days ≥ 0`, `getLogsByDay`
returns exactly `days` buckets whose dates increase strictly by one
calendar day, whose last date is `now`'s calendar date, and in which each
window day carries the number of entries falling on it — in particular a
day with no matching entries appears with count `0`. -/
theorem getLogsByDay_window_shape (logs : List CigaretteLog) (days now : Int)
    (h : 0 ≤ days) :
    (((getLogsByDay logs days now).length : Int) = days) ∧
    (((getLogsByDay logs days now).map DailyBucket.date).Chain' (fun a b => b = a + 1)) ∧
    (days ≠ 0 →
      ((getLogsByDay logs days now).map DailyBucket.date).getLast? = some (dayOf now)) ∧
    (∀ b ∈ getLogsByDay logs days now, b.count = countOnDay logs b.date) := by
  rw [getLogsByDay_eq]
  refine ⟨?_, ?_, ?_, ascBuckets_counts logs days now⟩
  · simp [ascBuckets, Int.toNat_of_nonneg h]
  · rw [ascBuckets_map_date]
    exact revmap_range_chain days.toNat (dayOf now)
  · intro hne
    rw [ascBuckets_map_date]
    exact revmap_range_getLast days.toNat (dayOf now) (by omega)

/-- Witness for C1 at `logs = []`, `days = 7`, `now = 0`: seven zero-filled
buckets ending at day `0`. -/
theorem getLogsByDay_window_shape_witness :
    (0 : Int) ≤ 7 ∧
    ((((getLogsByDay [] 7 0).length : Int) = 7) ∧
    ((((getLogsByDay [] 7 0).map DailyBucket.date).Chain' (fun a b => b = a + 1))) ∧
    ((7 : Int) ≠ 0 →
      ((getLogsByDay [] 7 0).map DailyBucket.date).getLast? = some (dayOf 0)) ∧
    (∀ b ∈ getLogsByDay [] 7 0, b.count = countOnDay [] b.date)) :=
  ⟨by decide, getLogsByDay_window_shape [] 7 0 (by decide)⟩

theorem sum_map_add_split (keys : List Int) (a b : Int → Nat) :
    (keys.map (fun k => a k + b k)).sum = (keys.map a).sum + (keys.map b).sum := by
  induction keys with
  | nil => rfl
  | cons k ks ih => simp only [List.map_cons, List.sum_cons, ih]; omega

theorem sum_ite_one (x : Int) :
    ∀ keys : List Int, keys.Nodup →
      (keys.map (fun k => if x = k then (1 : Nat) else 0)).sum
        = if x ∈ keys then 1 else 0 := by
  intro keys
  induction keys with
  | nil => intro _; simp
  | cons k ks ih =>
    intro hk
    rw [List.nodup_cons] at hk
    by_cases hx : x = k
    · subst hx
      simp [hk.1, ih hk.2]
    · simp only [List.map_cons, List.sum_cons, if_neg hx, List.mem_cons]
      rw [ih hk.2]
      simp [hx]

theorem sum_countOnDay (logs : List CigaretteLog) :
    ∀ keys : List Int, keys.Nodup →
      (keys.map (countOnDay logs)).sum
        = (logs.filter (fun log => dayOf log.timestamp ∈ keys)).length := by
  induction logs with
  | nil =>
    intro keys _
    have h0 : ∀ k ∈ keys, countOnDay ([] : List CigaretteLog) k = 0 := fun k _ => rfl
    rw [List.map_congr_left h0]
    simp
  | cons l ls ih =>
    intro keys hk
    have hcons : ∀ k ∈ keys, countOnDay (l :: ls) k
        = (if dayOf l.timestamp = k then 1 else 0) + countOnDay ls k := by
      intro k _
      simp only [countOnDay, List.filter_cons]
      by_cases hd : dayOf l.timestamp = k
      · simp [hd]
        omega
      · simp [hd]
    rw [List.map_congr_left hcons, sum_map_add_split, sum_ite_one _ keys hk, ih keys hk,
      List.filter_cons]
    by_cases hm : dayOf l.timestamp ∈ keys
    · simp [hm]
      omega
    · simp [hm]

theorem mem_desc_keys_iff (n : Nat) (d k : Int) :
    (k ∈ (List.range n).map (fun i : Nat => d - (i : Int))) ↔ d - n < k ∧ k ≤ d := by
  simp only [List.mem_map, List.mem_range]
  constructor
  · rintro ⟨i, hi, rfl⟩
    omega
  · rintro ⟨h1, h2⟩
    exact ⟨(d - k).toNat, by omega, by omega⟩

theorem desc_keys_nodup (n : Nat) (d : Int) :
    ((List.range n).map (fun i : Nat => d - (i : Int))).Nodup := by
  rw [List.Nodup, List.pairwise_map]
  exact (List.pairwise_lt_range n).imp (fun hij => by omega)

/-- C2: the counts of the buckets returned by `getLogsByDay` sum to the
number of entries whose local calendar date lies in the trailing window of
`days` days ending at `now`'s date; entries outside the window are ignored
(the result is a total function of the inputs — no error). -/
theorem getLogsByDay_sum_invariant (logs : List CigaretteLog) (days now : Int)
    (h : 0 ≤ days) :
    ((getLogsByDay logs days now).map DailyBucket.count).sum
      = (logs.filter (fun log =>
          dayOf now - days < dayOf log.timestamp ∧ dayOf log.timestamp ≤ dayOf now)).length := by
  rw [getLogsByDay_eq]
  have hmap : (ascBuckets logs days now).map DailyBucket.count
      = (((List.range days.toNat).map (fun i : Nat => dayOf now - (i : Int))).map
          (countOnDay logs)).reverse := by
    simp [ascBuckets, List.map_reverse, List.map_map, Function.comp]
  rw [hmap, List.sum_reverse,
    sum_countOnDay logs _ (desc_keys_nodup days.toNat (dayOf now))]
  apply congrArg
  apply List.filter_congr
  intro log _
  have hiff := mem_desc_keys_iff days.toNat (dayOf now) (dayOf log.timestamp)
  have hcast : ((days.toNat : Int)) = days := Int.toNat_of_nonneg h
  rw [hcast] at hiff
  simp only [decide_eq_decide]
  exact hiff

/-- Witness for C2 at a three-entry collection, `days = 2`, `now` at the
start of day `9`: the entry on day `8` and the entry on day `9` are counted,
the entry on day `0` is outside the window and ignored. -/
theorem getLogsByDay_sum_invariant_witness :
    (0 : Int) ≤ 2 ∧
    ((getLogsByDay
        [⟨"a", 9 * 86400000⟩, ⟨"b", 8 * 86400000⟩, ⟨"c", 0⟩] 2 (9 * 86400000)).map
          DailyBucket.count).sum
      = ([⟨"a", 9 * 86400000⟩, ⟨"b", 8 * 86400000⟩, ⟨"c", 0⟩].filter
          (fun log : CigaretteLog =>
            dayOf (9 * 86400000) - 2 < dayOf log.timestamp ∧
              dayOf log.timestamp ≤ dayOf (9 * 86400000))).length :=
  ⟨by decide,
    getLogsByDay_sum_invariant
      [⟨"a", 9 * 86400000⟩, ⟨"b", 8 * 86400000⟩, ⟨"c", 0⟩] 2 (9 * 86400000) (by decide)⟩

/-- A `DailySpending` record from `src/app/(tabs)/costs.tsx:18-22`:
`{ date: Date; count: number; amount: number }`, with money as an exact
rational (the source multiplies two JS numbers; the claim is about the
exact product). -/
structure DailySpending where
  date : Int
  count : Nat
  amount : ℚ
deriving DecidableEq, Repr

/-- The per-bucket spending derivation from `loadData` in
`src/app/(tabs)/costs.tsx:98-108`: each day's record carries
`amount: count * cost`.  (The surrounding re-alignment over `allDays`
re-creates the same zero-filled window that `getLogsByDay` already
returns; the derivation itself is this map.) -/
def deriveSpending (dailyBuckets : List DailyBucket) (unitCost : ℚ) :
    List DailySpending :=
  dailyBuckets.map (fun b => ⟨b.date, b.count, (b.count : ℚ) * unitCost⟩)

/-- C3: `deriveSpending` returns one record per input bucket, in order,
whose amount is exactly `count * unitCost` (no rounding); with
`unitCost = 0` every returned amount is `0`. -/
theorem deriveSpending_exact (bs : List DailyBucket) (unitCost : ℚ)
    (h : 0 ≤ unitCost) :
    (deriveSpending bs unitCost).length = bs.length ∧
    List.Forall₂ (fun (b : DailyBucket) (s : DailySpending) =>
      s.date = b.date ∧ s.count = b.count ∧ s.amount = (b.count : ℚ) * unitCost)
      bs (deriveSpending bs unitCost) ∧
    (unitCost = 0 → ∀ s ∈ deriveSpending bs unitCost, s.amount = 0) := by
  refine ⟨List.length_map _ _, ?_, ?_⟩
  · induction bs with
    | nil => exact List.Forall₂.nil
    | cons b rest ih => exact List.Forall₂.cons ⟨rfl, rfl, rfl⟩ ih
  · rintro rfl s hs
    simp only [deriveSpending, List.mem_map] at hs
    obtain ⟨b, _, rfl⟩ := hs
    simp

/-- Witness for C3 at two buckets and `unitCost = 5/2`. -/
theorem deriveSpending_exact_witness :
    (0 : ℚ) ≤ 5 / 2 ∧
    ((deriveSpending [⟨0, 2⟩, ⟨1, 0⟩] (5 / 2)).length = 2 ∧
    List.Forall₂ (fun (b : DailyBucket) (s : DailySpending) =>
      s.date = b.date ∧ s.count = b.count ∧ s.amount = (b.count : ℚ) * (5 / 2))
      [⟨0, 2⟩, ⟨1, 0⟩] (deriveSpending [⟨0, 2⟩, ⟨1, 0⟩] (5 / 2)) ∧
    ((5 : ℚ) / 2 = 0 → ∀ s ∈ deriveSpending [⟨0, 2⟩, ⟨1, 0⟩] (5 / 2), s.amount = 0)) :=
  ⟨by norm_num, deriveSpending_exact [⟨0, 2⟩, ⟨1, 0⟩] (5 / 2) (by norm_num)⟩

/-- `Number((x).toFixed(1))` for a finite nonnegative JS number: the
multiple of `1/10` nearest to `x`, ties resolved toward the larger value
(ECMAScript `Number.prototype.toFixed` picks the larger `n` when two are
equally near). -/
def toFixed1 (x : ℚ) : ℚ := (⌊x * 10 + 1 / 2⌋ : ℚ) / 10

/-- `aggregate` over period buckets, from `loadData` in
`src/app/(tabs)/trends.tsx:61-62`:
`total = periodData.reduce((sum, day) => sum + day.count, 0)` and
`dailyAverage = periodData.length > 0 ? (total / periodData.length).toFixed(1) : 0`
(then `Number(dailyAverage)` when stored). -/
def aggregate (periodBuckets : List DailyBucket) : ℚ × ℚ :=
  let total : ℚ := ((periodBuckets.map DailyBucket.count).sum : Nat)
  (total,
    if 0 < periodBuckets.length then toFixed1 (total / (periodBuckets.length : ℚ))
    else 0)

theorem toFixed1_close (x : ℚ) : |toFixed1 x - x| ≤ 1 / 20 := by
  have h1 : (⌊x * 10 + 1 / 2⌋ : ℚ) ≤ x * 10 + 1 / 2 := Int.floor_le _
  have h2 : x * 10 + 1 / 2 - 1 < (⌊x * 10 + 1 / 2⌋ : ℚ) := Int.sub_one_lt_floor _
  rw [abs_le]
  constructor
  · simp only [toFixed1]
    linarith
  · simp only [toFixed1]
    linarith

/-- C4 counterexample: with one entry spread over three buckets the code
computes `Number((1/3).toFixed(1)) = 3/10`, not the exact average `1/3`
the claim asserts for non-empty sequences. -/
theorem aggregate_average_counterexample :
    (aggregate [⟨0, 1⟩, ⟨1, 0⟩, ⟨2, 0⟩]).2 = 3 / 10 ∧
    (aggregate [⟨0, 1⟩, ⟨1, 0⟩, ⟨2, 0⟩]).2 ≠
      (aggregate [⟨0, 1⟩, ⟨1, 0⟩, ⟨2, 0⟩]).1 /
        (([⟨0, 1⟩, ⟨1, 0⟩, ⟨2, 0⟩] : List DailyBucket).length : ℚ) := by
  have hval : (aggregate [⟨0, 1⟩, ⟨1, 0⟩, ⟨2, 0⟩]).2 = 3 / 10 := by
    simp only [aggregate, toFixed1]
    norm_num
  refine ⟨hval, ?_⟩
  rw [hval]
  simp only [aggregate]
  norm_num

/-- C4 amended: `aggregate []` is `(0, 0)` (no NaN, no division error);
for non-empty buckets the total is the sum of the counts and the daily
average is the exact average rounded to one decimal place (ECMAScript
`toFixed(1)`), hence within `1/20` of `total / count`. -/
theorem aggregate_empty_and_average (bs : List DailyBucket) (hne : bs ≠ []) :
    aggregate [] = (0, 0) ∧
    (aggregate bs).1 = (((bs.map DailyBucket.count).sum : Nat) : ℚ) ∧
    (aggregate bs).2 = toFixed1 ((aggregate bs).1 / (bs.length : ℚ)) ∧
    |(aggregate bs).2 - (aggregate bs).1 / (bs.length : ℚ)| ≤ 1 / 20 := by
  have hlen : 0 < bs.length := List.length_pos.mpr hne
  refine ⟨by simp [aggregate], rfl, ?_, ?_⟩
  · simp only [aggregate, if_pos hlen]
  · simp only [aggregate, if_pos hlen]
    exact toFixed1_close _

/-- Witness for C4's amended claim at a single bucket of count 2. -/
theorem aggregate_empty_and_average_witness :
    ([⟨0, 2⟩] : List DailyBucket) ≠ [] ∧
    (aggregate [] = (0, 0) ∧
    (aggregate [⟨0, 2⟩]).1 = ((([(⟨0, 2⟩ : DailyBucket)].map DailyBucket.count).sum : Nat) : ℚ) ∧
    (aggregate [⟨0, 2⟩]).2 = toFixed1 ((aggregate [⟨0, 2⟩]).1 / (([(⟨0, 2⟩ : DailyBucket)].length : Nat) : ℚ)) ∧
    |(aggregate [⟨0, 2⟩]).2 - (aggregate [⟨0, 2⟩]).1 / (([(⟨0, 2⟩ : DailyBucket)].length : Nat) : ℚ)| ≤ 1 / 20) :=
  ⟨by decide, aggregate_empty_and_average [⟨0, 2⟩] (by decide)⟩

/-- The four time-of-day buckets of the home screen. -/
inductive TimeOfDay where
  | morning : TimeOfDay
  | afternoon : TimeOfDay
  | evening : TimeOfDay
  | night : TimeOfDay
deriving DecidableEq, Repr

/-- `getTimeOfDay` from `src/app/(tabs)/index.tsx:23-29`:
`hour >= 5 && hour < 12` is morning, `hour >= 12 && hour < 17` afternoon,
`hour >= 17 && hour < 21` evening, otherwise night. -/
def getTimeOfDay (t : Int) : TimeOfDay :=
  if 5 ≤ hourOfDay t ∧ hourOfDay t < 12 then .morning
  else if 12 ≤ hourOfDay t ∧ hourOfDay t < 17 then .afternoon
  else if 17 ≤ hourOfDay t ∧ hourOfDay t < 21 then .evening
  else .night

/-- The `timeStats` record of the home screen. -/
structure TimeStats where
  morning : Nat
  afternoon : Nat
  evening : Nat
  night : Nat
deriving DecidableEq, Repr

/-- Total number of entries counted by a `TimeStats`. -/
def TimeStats.total (s : TimeStats) : Nat :=
  s.morning + s.afternoon + s.evening + s.night

/-- `updateTimeStats` from `src/app/(tabs)/index.tsx`: starting from all
zeroes, each log increments the bucket `getTimeOfDay` assigns it
(`timeStats[timeOfDay]++`). -/
def timeOfDayHistogram (logs : List CigaretteLog) : TimeStats :=
  logs.foldl
    (fun stats log =>
      match getTimeOfDay log.timestamp with
      | .morning => { stats with morning := stats.morning + 1 }
      | .afternoon => { stats with afternoon := stats.afternoon + 1 }
      | .evening => { stats with evening := stats.evening + 1 }
      | .night => { stats with night := stats.night + 1 })
    ⟨0, 0, 0, 0⟩

theorem hourOfDay_nonneg (t : Int) : 0 ≤ hourOfDay t :=
  Int.ediv_nonneg (Int.emod_nonneg t (by norm_num [msPerDay])) (by norm_num [msPerHour])

theorem hourOfDay_lt_24 (t : Int) : hourOfDay t < 24 := by
  have hmod : t % msPerDay < msPerDay := Int.emod_lt_of_pos t (by norm_num [msPerDay])
  have h24 : msPerDay = 24 * msPerHour := by norm_num [msPerDay, msPerHour]
  rw [hourOfDay, Int.ediv_lt_iff_lt_mul (by norm_num [msPerHour] : (0 : Int) < msPerHour)]
  omega

theorem histogram_total_step (logs : List CigaretteLog) :
    ∀ acc : TimeStats,
      (logs.foldl
        (fun stats log =>
          match getTimeOfDay log.timestamp with
          | .morning => { stats with morning := stats.morning + 1 }
          | .afternoon => { stats with afternoon := stats.afternoon + 1 }
          | .evening => { stats with evening := stats.evening + 1 }
          | .night => { stats with night := stats.night + 1 })
        acc).total = acc.total + logs.length := by
  induction logs with
  | nil => intro acc; simp
  | cons l ls ih =>
    intro acc
    rw [List.foldl_cons, ih, List.length_cons]
    cases hcase : getTimeOfDay l.timestamp <;>
      simp [hcase, TimeStats.total] <;> omega

/-- C5: `getTimeOfDay` assigns an instant to exactly one of the four
buckets by its local hour with the fixed boundaries `[5,12)` morning,
`[12,17)` afternoon, `[17,21)` evening, and night for the remaining hours
(`[21,24)` and `[0,5)`); the histogram therefore accounts for every entry
exactly once; and the eight boundary times behave as documented (4:59
night, 5:00 morning, 11:59 morning, 12:00 afternoon, 16:59 afternoon,
17:00 evening, 20:59 evening, 21:00 night). -/
theorem getTimeOfDay_boundaries :
    (∀ t : Int,
      (getTimeOfDay t = .morning ↔ 5 ≤ hourOfDay t ∧ hourOfDay t < 12) ∧
      (getTimeOfDay t = .afternoon ↔ 12 ≤ hourOfDay t ∧ hourOfDay t < 17) ∧
      (getTimeOfDay t = .evening ↔ 17 ≤ hourOfDay t ∧ hourOfDay t < 21) ∧
      (getTimeOfDay t = .night ↔
        (21 ≤ hourOfDay t ∧ hourOfDay t < 24) ∨ (0 ≤ hourOfDay t ∧ hourOfDay t < 5))) ∧
    (∀ logs : List CigaretteLog, (timeOfDayHistogram logs).total = logs.length) ∧
    (getTimeOfDay (4 * msPerHour + 59 * 60000) = .night ∧
     getTimeOfDay (5 * msPerHour) = .morning ∧
     getTimeOfDay (11 * msPerHour + 59 * 60000) = .morning ∧
     getTimeOfDay (12 * msPerHour) = .afternoon ∧
     getTimeOfDay (16 * msPerHour + 59 * 60000) = .afternoon ∧
     getTimeOfDay (17 * msPerHour) = .evening ∧
     getTimeOfDay (20 * msPerHour + 59 * 60000) = .evening ∧
     getTimeOfDay (21 * msPerHour) = .night) := by
  refine ⟨?_, ?_, ?_⟩
  · intro t
    have h0 := hourOfDay_nonneg t
    have h24 := hourOfDay_lt_24 t
    unfold getTimeOfDay
    split_ifs with h1 h2 h3 <;>
      refine ⟨?_, ?_, ?_, ?_⟩ <;> simp_all <;> omega
  · intro logs
    rw [timeOfDayHistogram, histogram_total_step logs ⟨0, 0, 0, 0⟩]
    simp [TimeStats.total]
  · refine ⟨?_, ?_, ?_, ?_, ?_, ?_, ?_, ?_⟩ <;> decide

/-- Modelled from the spec: the Aggregation Engine error contract of §4.2
and §7 — an out-of-domain parameter (negative day count) signals
`InvalidArgument`, every in-domain input returns the bucketing result.
The repository itself has no such error path; this definition exists only
to compare the claimed failure semantics with what `getLogsByDay` does. -/
def bucketByDayContract (logs : List CigaretteLog) (days now : Int) :
    Except String (List DailyBucket) :=
  if days < 0 then .error "InvalidArgument" else .ok (getLogsByDay logs days now)

/-- C6 counterexample: at the out-of-domain input `days = -1` the spec
contract demands an `InvalidArgument` signal, but `getLogsByDay` returns
the ordinary empty bucket list — exactly what it returns for the in-domain
input `days = 0`.  No aggregation function in the code signals
`InvalidArgument` for any input. -/
theorem getLogsByDay_negative_days_counterexample :
    bucketByDayContract [] (-1) 0 = .error "InvalidArgument" ∧
    getLogsByDay [] (-1) 0 = [] ∧
    getLogsByDay [] (-1) 0 = getLogsByDay [] 0 0 := by
  refine ⟨rfl, ?_, ?_⟩
  · rw [getLogsByDay_eq]
    rfl
  · rw [getLogsByDay_eq, getLogsByDay_eq]
    rfl

/-- C6 amended: the aggregation functions are total for every input —
empty collections and a zero-length window produce empty/zero results, and
a negative day count is handled like a zero-length window (empty result):
no input signals `InvalidArgument`. -/
theorem aggregation_functions_total (logs : List CigaretteLog) (days now : Int)
    (c : ℚ) (h : days ≤ 0) :
    getLogsByDay logs days now = [] ∧
    (∀ days2 now2 : Int, ∀ b ∈ getLogsByDay [] days2 now2, b.count = 0) ∧
    getLogsByDay logs 0 now = [] ∧
    aggregate [] = (0, 0) ∧
    deriveSpending [] c = [] := by
  refine ⟨?_, ?_, ?_, by simp [aggregate], rfl⟩
  · rw [getLogsByDay_eq]
    simp [ascBuckets, Int.toNat_of_nonpos h]
  · intro days2 now2 b hb
    rw [getLogsByDay_eq] at hb
    have := ascBuckets_counts [] days2 now2 b hb
    simpa [countOnDay] using this
  · rw [getLogsByDay_eq]
    simp [ascBuckets]

/-- Witness for C6's amended claim at `days = -1`. -/
theorem aggregation_functions_total_witness :
    (-1 : Int) ≤ 0 ∧
    (getLogsByDay [] (-1) 5 = [] ∧
    (∀ days2 now2 : Int, ∀ b ∈ getLogsByDay [] days2 now2, b.count = 0) ∧
    getLogsByDay [] 0 5 = [] ∧
    aggregate [] = (0, 0) ∧
    deriveSpending [] 1 = []) :=
  ⟨by decide, aggregation_functions_total [] (-1) 5 1 (by decide)⟩

/-- An entry used to exhibit duplicate-id behavior. -/
def dupTestLog : CigaretteLog := ⟨"1", 0⟩

/-- C7 counterexample: adding an entry whose id already occurs in the
prior collection appends it anyway — the resulting collection read back
contains the entry twice and two entries share the id "1", contradicting
the claim's universal "exactly once / no duplicate id" guarantee. -/
theorem addLog_duplicate_id_counterexample :
    getLogs (.value (addLog [dupTestLog] (some dupTestLog) 0))
      = [dupTestLog, dupTestLog] ∧
    (getLogs (.value (addLog [dupTestLog] (some dupTestLog) 0))).count dupTestLog = 2 ∧
    ¬ ((getLogs (.value (addLog [dupTestLog] (some dupTestLog) 0))).map
        CigaretteLog.id).Nodup := by
  refine ⟨rfl, ?_, ?_⟩ <;> decide

/-- C7 amended: provided the new entry's id does not occur in the prior
collection, `addLog` followed by `getLogs` contains the new entry exactly
once (and preserves distinctness of ids); `removeLog id` followed by
`getLogs` excludes that id and is set-equal to the prior entries with
other ids. -/
theorem addLog_removeLog_roundtrip (state : List CigaretteLog)
    (e : CigaretteLog) (nowMs : Int) (rid : String)
    (hfresh : ∀ l ∈ state, l.id ≠ e.id) :
    (getLogs (.value (addLog state (some e) nowMs))).count e = 1 ∧
    ((state.map CigaretteLog.id).Nodup →
      ((getLogs (.value (addLog state (some e) nowMs))).map CigaretteLog.id).Nodup) ∧
    (∀ x : CigaretteLog,
      x ∈ getLogs (.value (removeLog state rid)) ↔ (x ∈ state ∧ x.id ≠ rid)) := by
  have hnotmem : e ∉ state := fun he => hfresh e he rfl
  refine ⟨?_, ?_, ?_⟩
  · show (state ++ [e]).count e = 1
    rw [List.count_append, List.count_eq_zero.mpr hnotmem]
    simp
  · intro hnd
    show ((state ++ [e]).map CigaretteLog.id).Nodup
    rw [List.map_append, List.nodup_append]
    refine ⟨hnd, by simp, ?_⟩
    intro a ha
    simp only [List.mem_map] at ha
    obtain ⟨l, hl, rfl⟩ := ha
    simpa using fun hle => hfresh l hl hle
  · intro x
    show x ∈ state.filter (fun log => log.id ≠ rid) ↔ _
    rw [List.mem_filter]
    simp

/-- Witness for C7's amended claim: add `⟨"2", 5⟩` to a state holding only
id "1", then remove id "1". -/
theorem addLog_removeLog_roundtrip_witness :
    (∀ l ∈ [(⟨"1", 0⟩ : CigaretteLog)], l.id ≠ (⟨"2", 5⟩ : CigaretteLog).id) ∧
    ((getLogs (.value (addLog [⟨"1", 0⟩] (some ⟨"2", 5⟩) 0))).count ⟨"2", 5⟩ = 1 ∧
    ((([(⟨"1", 0⟩ : CigaretteLog)].map CigaretteLog.id).Nodup →
      ((getLogs (.value (addLog [⟨"1", 0⟩] (some ⟨"2", 5⟩) 0))).map CigaretteLog.id).Nodup)) ∧
    (∀ x : CigaretteLog,
      x ∈ getLogs (.value (removeLog [⟨"1", 0⟩] "1")) ↔
        (x ∈ [(⟨"1", 0⟩ : CigaretteLog)] ∧ x.id ≠ "1"))) :=
  ⟨by decide, addLog_removeLog_roundtrip [⟨"1", 0⟩] ⟨"2", 5⟩ 0 "1" (by decide)⟩

/-- C8: `removeLog` is idempotent — removing the same id twice yields the
same collection as removing it once — and removing an id absent from the
collection returns the collection unchanged (a no-op, not an error). -/
theorem removeLog_idempotent (state : List CigaretteLog) (rid : String) :
    removeLog (removeLog state rid) rid = removeLog state rid ∧
    ((∀ l ∈ state, l.id ≠ rid) → removeLog state rid = state) := by
  constructor
  · apply List.filter_eq_self.mpr
    intro a ha
    exact (List.mem_filter.mp ha).2
  · intro hall
    apply List.filter_eq_self.mpr
    intro a ha
    simpa using hall a ha

/-- Witness for C8 at a one-entry state and an absent id. -/
theorem removeLog_idempotent_witness :
    (∀ l ∈ [(⟨"1", 0⟩ : CigaretteLog)], l.id ≠ "7") ∧
    removeLog [⟨"1", 0⟩] "7" = [⟨"1", 0⟩] :=
  ⟨by decide, (removeLog_idempotent [⟨"1", 0⟩] "7").2 (by decide)⟩

/-- C9: reads never fail the caller — `getLogs` returns the empty
collection when the stored value is absent or unreadable, and
`getDailyGoal` returns the documented default (`DEFAULT_GOAL = 0`) when
its value is absent, unreadable, or fails to parse. -/
theorem reads_degrade_to_defaults :
    getLogs .absent = [] ∧
    getLogs .unreadable = [] ∧
    getDailyGoal .absent = DEFAULT_GOAL ∧
    getDailyGoal .unreadable = DEFAULT_GOAL ∧
    getDailyGoal (.value none) = DEFAULT_GOAL :=
  ⟨rfl, rfl, rfl, rfl, rfl⟩

/-- C10: `removeLog` removes every entry whose id equals the argument —
no entry with that id remains even when several entries share it — and the
remaining entries are kept in their original relative order (the result is
a sublist of the input) with their multiplicities unchanged. -/
theorem removeLog_removes_every_match (state : List CigaretteLog) (rid : String) :
    (∀ e ∈ removeLog state rid, e.id ≠ rid) ∧
    List.Sublist (removeLog state rid) state ∧
    (∀ e : CigaretteLog, e.id ≠ rid →
      (removeLog state rid).count e = state.count e) := by
  refine ⟨?_, List.filter_sublist state, ?_⟩
  · intro e he
    have := (List.mem_filter.mp he).2
    simpa using this
  · intro e he
    exact List.count_filter (by simpa using he)

/-- Witness for C10 on a state with a duplicated id "1": the kept entry's
multiplicity is unchanged. -/
theorem removeLog_removes_every_match_witness :
    ((⟨"2", 1⟩ : CigaretteLog).id ≠ "1") ∧
    (removeLog [⟨"1", 0⟩, ⟨"2", 1⟩, ⟨"1", 2⟩] "1").count ⟨"2", 1⟩
      = ([⟨"1", 0⟩, ⟨"2", 1⟩, ⟨"1", 2⟩] : List CigaretteLog).count ⟨"2", 1⟩ :=
  ⟨by decide,
    (removeLog_removes_every_match [⟨"1", 0⟩, ⟨"2", 1⟩, ⟨"1", 2⟩] "1").2.2
      ⟨"2", 1⟩ (by decide)⟩
